import Mathlib

/-!
Verification of the CCTP bridge scripts (Base/Solana → Starknet/Ethereum).

Shallow embedding of the pure helpers and of the attestation polling loop of
  - transfer-base-to-starknet.js
  - the Base → Ethereum script (part_000)
  - the Solana → Starknet script (part_002)

Bytes are modelled as `List Nat` (each entry < 256 where values matter);
JavaScript strings are modelled as `List Char`.
-/

/-- One hex digit in lowercase, as produced by Buffer.toString with the hex
encoding: digit `d < 16` maps to `0`-`9` or `a`-`f`. -/
def hexDigitChar (d : Nat) : Char :=
  if d < 10 then Char.ofNat (48 + d) else Char.ofNat (87 + d)

/-- The two lowercase hex digits of one byte, as Buffer.toString with the hex
encoding emits them (the byte is reduced mod 256 as a Uint8Array entry is). -/
def byteToHex2 (b : Nat) : List Char :=
  [hexDigitChar (b % 256 / 16), hexDigitChar (b % 16)]

/-- Value of a hex digit character: `0`-`9`, `a`-`f`, `A`-`F`; `none` otherwise.
Matches both the digits BigInt accepts after 0x and viem charCodeToBase16. -/
def hexVal (ch : Char) : Option Nat :=
  let n := ch.toNat
  if 48 ≤ n ∧ n ≤ 57 then some (n - 48)
  else if 97 ≤ n ∧ n ≤ 102 then some (n - 87)
  else if 65 ≤ n ∧ n ≤ 70 then some (n - 55)
  else none

/-- Numeric value of a hex digit string, as BigInt with a 0x prefix computes it.
Digits outside the hex alphabet never arise at the call sites. -/
def natOfHexDigits (s : List Char) : Nat :=
  s.foldl (fun acc ch => acc * 16 + (hexVal ch).getD 0) 0

/-- Big-endian value of a byte list: the reference meaning of packing bytes
into one integer. -/
def beBytesToNat (l : List Nat) : Nat :=
  l.foldl (fun acc b => acc * 256 + b) 0

/-- The `len` big-endian bytes of `n` (most significant first), used to state
the round-trip law: the inverse reading of a packed field element. -/
def natToBEBytes : Nat → Nat → List Nat
  | 0, _ => []
  | len + 1, n => natToBEBytes len (n / 256) ++ [n % 256]

/-- `bytesToFelt` from transfer-base-to-starknet.js / part_002: reject a chunk
longer than 31 bytes, otherwise convert to hex (with the `"0"` fallback for an
empty hex string) and read it back with BigInt. Failure is `none`. -/
def bytesToFelt (chunk : List Nat) : Option Nat :=
  if 31 < chunk.length then none
  else
    let hex := chunk.flatMap byteToHex2
    some (natOfHexDigits (if hex.isEmpty then [Char.ofNat 48] else hex))

/-- `bytesToByteArrayCalldata` from transfer-base-to-starknet.js / part_002:
`fullChunks = floor(length/31)`; pack each 31-byte slice, then the pending
tail; emit chunk count, chunk felts, pending felt, pending length. -/
def bytesToByteArrayCalldata (bytes : List Nat) : Option (List Nat) :=
  let fullChunks := bytes.length / 31
  match (List.range fullChunks).mapM
      (fun i => bytesToFelt ((bytes.drop (i * 31)).take 31)) with
  | none => none
  | some dataFelts =>
    let pending := bytes.drop (fullChunks * 31)
    match bytesToFelt pending with
    | none => none
    | some pw => some (((dataFelts.length : Nat)) :: dataFelts ++ [pw, pending.length])

/-- Tail step of the decoder stated by the round-trip law of the spec: after
the chunk felts come exactly the pending felt and the pending length. -/
def decodeTail (k : Nat) (felts : List Nat) : List Nat → Option (List Nat)
  | [pw, pl] =>
    if felts.length = k then
      some (felts.flatMap (natToBEBytes 31) ++ natToBEBytes pl pw)
    else none
  | _ => none

/-- Decoder stated by the round-trip law of the spec: read the chunk count,
reinterpret each full-chunk felt as 31 big-endian bytes, and the pending felt
as the number of bytes given by the final pending-length element. -/
def byteArrayCalldataDecode : List Nat → Option (List Nat)
  | [] => none
  | k :: rest => decodeTail k (rest.take k) (rest.drop k)

-- ===== basic lemmas about hex digits and byte packing =====

theorem hexVal_hexDigitChar (d : Nat) (hd : d < 16) :
    hexVal (hexDigitChar d) = some d := by
  interval_cases d <;> decide

theorem natOfHexDigits_append (s t : List Char) :
    natOfHexDigits (s ++ t) =
      t.foldl (fun acc ch => acc * 16 + (hexVal ch).getD 0) (natOfHexDigits s) := by
  simp [natOfHexDigits, List.foldl_append]

theorem beBytesToNat_append (l : List Nat) (b : Nat) :
    beBytesToNat (l ++ [b]) = beBytesToNat l * 256 + b := by
  simp [beBytesToNat, List.foldl_append]

/-- Converting bytes to hex digits and reading them back with BigInt gives the
big-endian packed value. -/
theorem natOfHexDigits_flatMap (l : List Nat) (hl : ∀ b ∈ l, b < 256) :
    natOfHexDigits (l.flatMap byteToHex2) = beBytesToNat l := by
  induction l using List.reverseRecOn with
  | nil => simp [natOfHexDigits, beBytesToNat]
  | append_singleton l b ih =>
    have hb : b < 256 := hl b (by simp)
    have hl' : ∀ x ∈ l, x < 256 := fun x hx => hl x (by simp [hx])
    rw [List.flatMap_append, natOfHexDigits_append, beBytesToNat_append, ih hl']
    have h1 : hexVal (hexDigitChar (b % 256 / 16)) = some (b % 256 / 16) :=
      hexVal_hexDigitChar _ (by omega)
    have h2 : hexVal (hexDigitChar (b % 16)) = some (b % 16) :=
      hexVal_hexDigitChar _ (by omega)
    simp [byteToHex2, List.foldl, h1, h2]
    have hb' : b % 256 = b := Nat.mod_eq_of_lt hb
    rw [hb']
    omega

/-- On a chunk of at most 31 actual bytes, bytesToFelt returns the big-endian
packed value. -/
theorem bytesToFelt_of_le (chunk : List Nat) (hb : ∀ b ∈ chunk, b < 256)
    (hlen : chunk.length ≤ 31) :
    bytesToFelt chunk = some (beBytesToNat chunk) := by
  unfold bytesToFelt
  rw [if_neg (by omega)]
  cases chunk with
  | nil => simp [natOfHexDigits, beBytesToNat, hexVal]
  | cons a l =>
    have hne : ((a :: l).flatMap byteToHex2).isEmpty = false := by
      simp [byteToHex2]
    simp only [hne, Bool.false_eq_true, if_false]
    rw [natOfHexDigits_flatMap _ hb]

/-- The felt value bytesToFelt computes on a chunk it accepts, before any
assumption that entries are real bytes. -/
def feltOfChunk (chunk : List Nat) : Nat :=
  let hex := chunk.flatMap byteToHex2
  natOfHexDigits (if hex.isEmpty then [Char.ofNat 48] else hex)

theorem bytesToFelt_of_length (chunk : List Nat) (h : chunk.length ≤ 31) :
    bytesToFelt chunk = some (feltOfChunk chunk) := by
  unfold bytesToFelt feltOfChunk
  rw [if_neg (by omega)]

theorem feltOfChunk_eq_be (chunk : List Nat) (hb : ∀ b ∈ chunk, b < 256)
    (hlen : chunk.length ≤ 31) : feltOfChunk chunk = beBytesToNat chunk := by
  have h1 := bytesToFelt_of_length chunk hlen
  have h2 := bytesToFelt_of_le chunk hb hlen
  rw [h1] at h2
  exact Option.some.inj h2

theorem mapM_option_of_forall {α β : Type} (f : α → Option β) (g : α → β)
    (l : List α) (h : ∀ x ∈ l, f x = some (g x)) : l.mapM f = some (l.map g) := by
  induction l with
  | nil => rfl
  | cons a t ih =>
    rw [List.mapM_cons, h a (by simp), ih (fun x hx => h x (by simp [hx]))]
    rfl

/-- Unconditional characterisation of the encoder output. -/
theorem bytesToByteArrayCalldata_raw (bytes : List Nat) :
    bytesToByteArrayCalldata bytes =
      some ((bytes.length / 31) ::
        (List.range (bytes.length / 31)).map
          (fun i => feltOfChunk ((bytes.drop (i * 31)).take 31)) ++
        [feltOfChunk (bytes.drop (bytes.length / 31 * 31)), bytes.length % 31]) := by
  have hmap : (List.range (bytes.length / 31)).mapM
      (fun i => bytesToFelt ((bytes.drop (i * 31)).take 31)) =
      some ((List.range (bytes.length / 31)).map
        (fun i => feltOfChunk ((bytes.drop (i * 31)).take 31))) := by
    refine mapM_option_of_forall _ _ _ (fun i _ => ?_)
    exact bytesToFelt_of_length _ (by simp)
  have hpend : (bytes.drop (bytes.length / 31 * 31)).length = bytes.length % 31 := by
    simp [List.length_drop]
    omega
  have hfelt : bytesToFelt (bytes.drop (bytes.length / 31 * 31)) =
      some (feltOfChunk (bytes.drop (bytes.length / 31 * 31))) :=
    bytesToFelt_of_length _ (by omega)
  simp only [bytesToByteArrayCalldata, hmap, hfelt]
  simp [hpend]

theorem chunk_mem_lt (bytes : List Nat) (hb : ∀ b ∈ bytes, b < 256) (i : Nat) :
    ∀ b ∈ (bytes.drop (i * 31)).take 31, b < 256 := fun b hmem =>
  hb b (List.mem_of_mem_drop (List.mem_of_mem_take hmem))

theorem chunk_length_full (bytes : List Nat) (i : Nat)
    (hi : i < bytes.length / 31) : ((bytes.drop (i * 31)).take 31).length = 31 := by
  have h1 : (i + 1) * 31 ≤ bytes.length / 31 * 31 := Nat.mul_le_mul_right 31 hi
  have h2 : bytes.length / 31 * 31 ≤ bytes.length := Nat.div_mul_le_self _ _
  simp [List.length_take, List.length_drop]
  omega

/-- Rejoining the full 31-byte chunks with the tail recovers the list. -/
theorem chunksJoin (k : Nat) (l : List Nat) :
    (List.range k).flatMap (fun i => (l.drop (i * 31)).take 31) ++ l.drop (k * 31) = l := by
  induction k with
  | zero => simp
  | succ k ih =>
    rw [List.range_succ, List.flatMap_append]
    have hd : l.drop ((k + 1) * 31) = (l.drop (k * 31)).drop 31 := by
      rw [List.drop_drop]
      ring_nf
    rw [List.append_assoc, hd]
    simp only [List.flatMap_cons, List.flatMap_nil, List.append_nil]
    rw [List.take_append_drop]
    exact ih

theorem natToBEBytes_beBytesToNat (l : List Nat) (hb : ∀ b ∈ l, b < 256) :
    natToBEBytes l.length (beBytesToNat l) = l := by
  induction l using List.reverseRecOn with
  | nil => rfl
  | append_singleton l b ih =>
    have hb' : b < 256 := hb b (by simp)
    have hl' : ∀ x ∈ l, x < 256 := fun x hx => hb x (by simp [hx])
    rw [beBytesToNat_append]
    have hlen : (l ++ [b]).length = l.length + 1 := by simp
    rw [hlen]
    show natToBEBytes l.length ((beBytesToNat l * 256 + b) / 256) ++
      [(beBytesToNat l * 256 + b) % 256] = l ++ [b]
    have hdiv : (beBytesToNat l * 256 + b) / 256 = beBytesToNat l := by omega
    have hmod : (beBytesToNat l * 256 + b) % 256 = b := by omega
    rw [hdiv, hmod, ih hl']

theorem flatMapCongr {α β : Type} (l : List α) (f g : α → List β)
    (h : ∀ x ∈ l, f x = g x) : l.flatMap f = l.flatMap g := by
  induction l with
  | nil => rfl
  | cons a t ih =>
    simp only [List.flatMap_cons]
    rw [h a (by simp), ih (fun x hx => h x (by simp [hx]))]

/-- C7: bytesToFelt fails exactly on chunks longer than 31 bytes; on any chunk
of length at most 31 (the empty chunk included) it returns the big-endian
integer value of the bytes. -/
theorem bytesToFelt_error_iff (chunk : List Nat) (hb : ∀ b ∈ chunk, b < 256) :
    (bytesToFelt chunk = none ↔ 31 < chunk.length) ∧
    (chunk.length ≤ 31 → bytesToFelt chunk = some (beBytesToNat chunk)) := by
  refine ⟨⟨fun h => ?_, fun h => ?_⟩, fun h => bytesToFelt_of_le chunk hb h⟩
  · by_contra hc
    push_neg at hc
    rw [bytesToFelt_of_length _ hc] at h
    exact Option.noConfusion h
  · unfold bytesToFelt
    rw [if_pos h]

theorem bytesToFelt_error_iff_witness :
    (∀ b ∈ ([171, 205] : List Nat), b < 256) ∧
    ((bytesToFelt [171, 205] = none ↔ 31 < ([171, 205] : List Nat).length) ∧
      (([171, 205] : List Nat).length ≤ 31 →
        bytesToFelt [171, 205] = some (beBytesToNat [171, 205]))) :=
  ⟨by decide, bytesToFelt_error_iff [171, 205] (by decide)⟩

/-- C9: the encoder never fails: every chunk it passes to bytesToFelt has
length at most 31, so the oversized-chunk branch is unreachable from it, and
the empty input encodes to the three field elements 0, 0, 0. -/
theorem calldata_total :
    (∀ bytes : List Nat, ∃ l, bytesToByteArrayCalldata bytes = some l) ∧
    bytesToByteArrayCalldata [] = some [0, 0, 0] := by
  refine ⟨fun bytes => ⟨_, bytesToByteArrayCalldata_raw bytes⟩, by decide⟩

/-- The encoder output with the felt values written as big-endian packed
bytes, shared by the layout and round-trip results. -/
theorem bytesToByteArrayCalldata_be (bytes : List Nat)
    (hb : ∀ b ∈ bytes, b < 256) :
    bytesToByteArrayCalldata bytes =
      some ((bytes.length / 31) ::
        (List.range (bytes.length / 31)).map
          (fun i => beBytesToNat ((bytes.drop (i * 31)).take 31)) ++
        [beBytesToNat (bytes.drop (bytes.length / 31 * 31)), bytes.length % 31]) := by
  rw [bytesToByteArrayCalldata_raw]
  have h1 : (List.range (bytes.length / 31)).map
      (fun i => feltOfChunk ((bytes.drop (i * 31)).take 31)) =
      (List.range (bytes.length / 31)).map
        (fun i => beBytesToNat ((bytes.drop (i * 31)).take 31)) := by
    refine List.map_congr_left (fun i _ => ?_)
    exact feltOfChunk_eq_be _ (chunk_mem_lt bytes hb i) (by simp)
  have h2 : feltOfChunk (bytes.drop (bytes.length / 31 * 31)) =
      beBytesToNat (bytes.drop (bytes.length / 31 * 31)) := by
    refine feltOfChunk_eq_be _ (fun b hmem => hb b (List.mem_of_mem_drop hmem)) ?_
    simp [List.length_drop]
    omega
  rw [h1, h2]

/-- C3: on a byte sequence of length N the encoder returns exactly
floor(N/31) + 3 field elements: the chunk count floor(N/31), the packed full
chunks, the packed pending chunk, and the pending length N mod 31. -/
theorem calldata_layout (bytes : List Nat) (hb : ∀ b ∈ bytes, b < 256) :
    bytesToByteArrayCalldata bytes =
      some ((bytes.length / 31) ::
        (List.range (bytes.length / 31)).map
          (fun i => beBytesToNat ((bytes.drop (i * 31)).take 31)) ++
        [beBytesToNat (bytes.drop (bytes.length / 31 * 31)), bytes.length % 31]) ∧
    (∀ l, bytesToByteArrayCalldata bytes = some l →
      l.length = bytes.length / 31 + 3) := by
  have hmain := bytesToByteArrayCalldata_be bytes hb
  refine ⟨hmain, fun l hl => ?_⟩
  rw [hmain] at hl
  have := Option.some.inj hl
  subst this
  simp

theorem calldata_layout_witness :
    (∀ b ∈ ([255, 0, 7] : List Nat), b < 256) ∧
    (bytesToByteArrayCalldata [255, 0, 7] =
      some ((([255, 0, 7] : List Nat).length / 31) ::
        (List.range (([255, 0, 7] : List Nat).length / 31)).map
          (fun i => beBytesToNat ((([255, 0, 7] : List Nat).drop (i * 31)).take 31)) ++
        [beBytesToNat (([255, 0, 7] : List Nat).drop (([255, 0, 7] : List Nat).length / 31 * 31)),
          ([255, 0, 7] : List Nat).length % 31]) ∧
    (∀ l, bytesToByteArrayCalldata [255, 0, 7] = some l →
      l.length = ([255, 0, 7] : List Nat).length / 31 + 3)) :=
  ⟨by decide, calldata_layout [255, 0, 7] (by decide)⟩

/-- C1: round-trip law — decoding the encoder output by reinterpreting each
full-chunk felt as 31 big-endian bytes and the pending felt as the number of
bytes given by the final pending-length element reconstructs the input. -/
theorem calldata_roundTrip (bytes : List Nat) (hb : ∀ b ∈ bytes, b < 256) :
    (bytesToByteArrayCalldata bytes).bind byteArrayCalldataDecode = some bytes := by
  rw [bytesToByteArrayCalldata_be bytes hb, Option.some_bind]
  set k := bytes.length / 31 with hk
  set felts := (List.range k).map
    (fun i => beBytesToNat ((bytes.drop (i * 31)).take 31)) with hfelts
  have hflen : felts.length = k := by simp [hfelts]
  have ht : (felts ++ [beBytesToNat (bytes.drop (k * 31)), bytes.length % 31]).take k
      = felts := by
    rw [← hflen]
    exact List.take_left _ _
  have hd : (felts ++ [beBytesToNat (bytes.drop (k * 31)), bytes.length % 31]).drop k
      = [beBytesToNat (bytes.drop (k * 31)), bytes.length % 31] := by
    rw [← hflen]
    exact List.drop_left _ _
  show decodeTail k
      ((felts ++ [beBytesToNat (bytes.drop (k * 31)), bytes.length % 31]).take k)
      ((felts ++ [beBytesToNat (bytes.drop (k * 31)), bytes.length % 31]).drop k) =
    some bytes
  rw [ht, hd]
  show (if felts.length = k then
      some (felts.flatMap (natToBEBytes 31) ++
        natToBEBytes (bytes.length % 31) (beBytesToNat (bytes.drop (k * 31))))
    else none) = some bytes
  rw [if_pos hflen]
  have hchunks : felts.flatMap (natToBEBytes 31) =
      (List.range k).flatMap (fun i => (bytes.drop (i * 31)).take 31) := by
    rw [hfelts, List.flatMap_map]
    refine flatMapCongr _ _ _ (fun i hi => ?_)
    have hik : i < k := List.mem_range.mp hi
    have hlen : ((bytes.drop (i * 31)).take 31).length = 31 :=
      chunk_length_full bytes i hik
    have := natToBEBytes_beBytesToNat ((bytes.drop (i * 31)).take 31)
      (chunk_mem_lt bytes hb i)
    rw [hlen] at this
    exact this
  have hpend : natToBEBytes (bytes.length % 31) (beBytesToNat (bytes.drop (k * 31)))
      = bytes.drop (k * 31) := by
    have hlen : (bytes.drop (k * 31)).length = bytes.length % 31 := by
      simp [List.length_drop, hk]
      omega
    have := natToBEBytes_beBytesToNat (bytes.drop (k * 31))
      (fun b hmem => hb b (List.mem_of_mem_drop hmem))
    rw [hlen] at this
    exact this
  rw [hchunks, hpend, chunksJoin]

theorem calldata_roundTrip_witness :
    (∀ b ∈ ([7, 0, 255, 128, 1] : List Nat), b < 256) ∧
    (bytesToByteArrayCalldata [7, 0, 255, 128, 1]).bind byteArrayCalldataDecode =
      some [7, 0, 255, 128, 1] :=
  ⟨by decide, calldata_roundTrip [7, 0, 255, 128, 1] (by decide)⟩

-- ===== string-side helpers: hex detection, envelope decoding, padding =====

/-- True on characters the regex class 0-9a-fA-F accepts. -/
def isHexChar (ch : Char) : Bool :=
  (hexVal ch).isSome

/-- The hex auto-detection of decodeEnvelope: the string starts with 0x, or it
is nonempty and every character is a hex digit (the JS regex test). -/
def hexDetect : List Char → Bool
  | '0' :: 'x' :: _ => true
  | s => !s.isEmpty && s.all isHexChar

/-- Leading 0x removal, as the JS replace with the anchored 0x regex does. -/
def strip0x : List Char → List Char
  | '0' :: 'x' :: rest => rest
  | s => s

/-- Node Buffer.from with the hex encoding: decode digit pairs from the left
and stop (returning the bytes so far) at the first invalid or incomplete
pair; never throws. -/
def bufferHexDecode : List Char → List Nat
  | c1 :: c2 :: rest =>
    match hexVal c1, hexVal c2 with
    | some hi, some lo => (hi * 16 + lo) :: bufferHexDecode rest
    | _, _ => []
  | _ => []

/-- One step of strict digit-pair decoding: both digits and the remaining
pairs must decode. -/
def hexPairStep (o1 o2 : Option Nat) (orest : Option (List Nat)) :
    Option (List Nat) :=
  match o1, o2, orest with
  | some hi, some lo, some bs => some ((hi * 16 + lo) :: bs)
  | _, _, _ => none

/-- Strict digit-pair decoding, failing on any invalid character: the inner
loop of viem hexToBytes, which throws on a digit outside the hex alphabet. -/
def hexPairsStrict : List Char → Option (List Nat)
  | [] => some []
  | c1 :: c2 :: rest => hexPairStep (hexVal c1) (hexVal c2) (hexPairsStrict rest)
  | [_] => none

/-- viem hexToBytes: drop the first two characters (the assumed 0x prefix),
left-pad with one 0 digit if the remainder has odd length, then decode digit
pairs strictly. `none` models the throw on an invalid digit. -/
def hexToBytes (s : List Char) : Option (List Nat) :=
  let hs := s.drop 2
  hexPairsStrict (if hs.length % 2 = 1 then '0' :: hs else hs)

/-- Index of a character in the base64 alphabet (A-Z, a-z, 0-9, +, /);
`none` for padding and all other characters. -/
def charToSextet (ch : Char) : Option Nat :=
  let n := ch.toNat
  if 65 ≤ n ∧ n ≤ 90 then some (n - 65)
  else if 97 ≤ n ∧ n ≤ 122 then some (n - 71)
  else if 48 ≤ n ∧ n ≤ 57 then some (n + 4)
  else if n = 43 then some 62
  else if n = 47 then some 63
  else none

/-- Character at an index of the base64 alphabet. -/
def sextetToChar (v : Nat) : Char :=
  if v ≤ 25 then Char.ofNat (65 + v)
  else if v ≤ 51 then Char.ofNat (71 + v)
  else if v ≤ 61 then Char.ofNat (v - 4)
  else if v = 62 then Char.ofNat 43
  else Char.ofNat 47

/-- Bytes of a run of base64 sextets: 4 sextets give 3 bytes; a trailing run
of 3 gives 2 bytes, of 2 gives 1 byte, of 1 or 0 gives none. -/
def sextetsToBytes : List Nat → List Nat
  | s1 :: s2 :: s3 :: s4 :: rest =>
    (s1 * 4 + s2 / 16) :: (s2 % 16 * 16 + s3 / 4) :: (s3 % 4 * 64 + s4) ::
      sextetsToBytes rest
  | [s1, s2] => [s1 * 4 + s2 / 16]
  | [s1, s2, s3] => [s1 * 4 + s2 / 16, s2 % 16 * 16 + s3 / 4]
  | _ => []

/-- Node Buffer.from with the base64 encoding, on the inputs that arise here:
read alphabet characters up to the padding or any foreign character and regroup
the sextets into bytes; never throws. -/
def bufferBase64Decode (s : List Char) : List Nat :=
  sextetsToBytes ((s.takeWhile (fun ch => (charToSextet ch).isSome)).filterMap
    charToSextet)

/-- RFC 4648 base64 encoding with padding, as Buffer.toString with the base64
encoding produces it: the reference encoding for the invariance claim. -/
def base64Encode : List Nat → List Char
  | [] => []
  | [b1] => [sextetToChar (b1 / 4), sextetToChar (b1 % 4 * 16), '=', '=']
  | [b1, b2] =>
    [sextetToChar (b1 / 4), sextetToChar (b1 % 4 * 16 + b2 / 16),
      sextetToChar (b2 % 16 * 4), '=']
  | b1 :: b2 :: b3 :: rest =>
    sextetToChar (b1 / 4) :: sextetToChar (b1 % 4 * 16 + b2 / 16) ::
      sextetToChar (b2 % 16 * 4 + b3 / 64) :: sextetToChar (b3 % 64) ::
      base64Encode rest

/-- Lowercase hex encoding of a payload with the 0x prefix: the reference hex
form of an envelope. -/
def hexEncode0x (p : List Nat) : List Char :=
  '0' :: 'x' :: p.flatMap byteToHex2

/-- decodeEnvelope from transfer-base-to-starknet.js: viem hexToBytes on the
hex branch (which can throw, modelled as `none`), Buffer base64 otherwise. -/
def decodeEnvelope (s : List Char) : Option (List Nat) :=
  if hexDetect s then hexToBytes s else some (bufferBase64Decode s)

/-- decodeEnvelope from the Solana script (part_002): Buffer hex decoding
after stripping 0x on the hex branch, Buffer base64 otherwise; total. -/
def decodeEnvelopeSolana (s : List Char) : List Nat :=
  if hexDetect s then bufferHexDecode (strip0x s) else bufferBase64Decode s

/-- toBytes32 from transfer-base-to-starknet.js: strip an optional 0x, pad the
start with 0 to 64 characters, put the 0x prefix back. -/
def toBytes32 (hex : List Char) : List Char :=
  let clean := strip0x hex
  '0' :: 'x' :: (List.replicate (64 - clean.length) '0' ++ clean)

/-- toBytes32Address from the Base → Ethereum script (part_000): 24 zero hex
digits, then the address without its first two characters. -/
def toBytes32Address (address : List Char) : List Char :=
  '0' :: 'x' :: (List.replicate 24 '0' ++ address.drop 2)

-- ===== attestation polling loop =====

/-- One entry of the messages array of an Iris response. -/
structure IrisMessage where
  status : String
  message : String
  attestation : String
deriving DecidableEq

/-- One observation of the attestation service: a thrown request error, or a
response body with its messages array (a missing or empty array is the empty
list, exactly what the optional chaining collapses it to). -/
inductive IrisResponse where
  | fail : IrisResponse
  | ok : List IrisMessage → IrisResponse
deriving DecidableEq

/-- The condition the loop accepts: a first message with status complete. -/
def isCompleteResponse : IrisResponse → Bool
  | .ok (m :: _) => m.status = "complete"
  | _ => false

/-- One iteration of the retrieveAttestation loop body on the observation of
request number k: return the first message if its status is complete,
otherwise (also on a thrown request error) sleep 5000 ms and continue with
`next`. -/
def pollStep (r : IrisResponse) (k : Nat)
    (next : List Nat × Option (Nat × IrisMessage)) :
    List Nat × Option (Nat × IrisMessage) :=
  match r with
  | .ok (m :: _) =>
    if m.status = "complete" then ([], some (k + 1, m))
    else (5000 :: next.1, next.2)
  | _ => (5000 :: next.1, next.2)

/-- retrieveAttestation (identical in all three scripts): request, return the
first message once its status is complete, otherwise sleep 5000 ms and retry;
request errors are swallowed and retried the same way. `respond j` is the
observation of request number j, `fuel` bounds the unrolling of the unbounded
while loop. Returns the emitted sleep durations and, on success, the number
of requests issued together with the returned message. -/
def retrieveAttestationTrace (respond : Nat → IrisResponse) :
    Nat → Nat → List Nat × Option (Nat × IrisMessage)
  | 0, _ => ([], none)
  | fuel + 1, k =>
    pollStep (respond k) k (retrieveAttestationTrace respond fuel (k + 1))

theorem trace_zero (respond : Nat → IrisResponse) (k : Nat) :
    retrieveAttestationTrace respond 0 k = ([], none) := rfl

theorem trace_succ (respond : Nat → IrisResponse) (fuel k : Nat) :
    retrieveAttestationTrace respond (fuel + 1) k =
      pollStep (respond k) k (retrieveAttestationTrace respond fuel (k + 1)) := rfl

theorem pollStep_fail (k : Nat) (next : List Nat × Option (Nat × IrisMessage)) :
    pollStep .fail k next = (5000 :: next.1, next.2) := rfl

theorem pollStep_nil (k : Nat) (next : List Nat × Option (Nat × IrisMessage)) :
    pollStep (.ok []) k next = (5000 :: next.1, next.2) := rfl

theorem pollStep_cons (m : IrisMessage) (rest : List IrisMessage) (k : Nat)
    (next : List Nat × Option (Nat × IrisMessage)) :
    pollStep (.ok (m :: rest)) k next =
      if m.status = "complete" then ([], some (k + 1, m))
      else (5000 :: next.1, next.2) := rfl

/-- The mint-stage call of the Base → Ethereum script (part_000): the two byte
arguments of receiveMessage. -/
structure MintCall where
  message : String
  attestation : String
deriving DecidableEq

/-- mintUSDC from part_000: receiveMessage is called with the message and
attestation fields of the polled attestation object, unchanged. -/
def mintUSDC (attestation : IrisMessage) : MintCall :=
  { message := attestation.message, attestation := attestation.attestation }

/-- The Iris URL the poller queries, from the burn receipt. -/
def irisUrl (domain : Nat) (srcTxHash : String) : String :=
  "https://iris-api-sandbox.circle.com/v2/messages/" ++ toString domain ++
    "?transactionHash=" ++ srcTxHash

/-- The poll → mint tail of main in part_000: retrieve the attestation for the
burn transaction on domain 6, then hand its fields to the mint stage. The
service is a function from URL and request index to an observation. -/
def pollThenMint (burnTx : String) (respond : String → Nat → IrisResponse)
    (fuel : Nat) : Option MintCall :=
  ((retrieveAttestationTrace (respond (irisUrl 6 burnTx)) fuel 0).2).map
    (fun p => mintUSDC p.2)

-- ===== C5, C6, C8 =====

/-- C5: when the service answers pending, pending, complete, the poller issues
exactly three requests and returns the first message entry of the third
response. -/
theorem poller_three_requests (respond : Nat → IrisResponse)
    (m0 m1 m2 : IrisMessage) (r0 r1 r2 : List IrisMessage) (fuel : Nat)
    (h0 : respond 0 = .ok (m0 :: r0)) (h0s : m0.status = "pending")
    (h1 : respond 1 = .ok (m1 :: r1)) (h1s : m1.status = "pending")
    (h2 : respond 2 = .ok (m2 :: r2)) (h2s : m2.status = "complete")
    (hfuel : 3 ≤ fuel) :
    (retrieveAttestationTrace respond fuel 0).2 = some (3, m2) := by
  obtain ⟨f, rfl⟩ : ∃ f, fuel = f + 3 := ⟨fuel - 3, by omega⟩
  show (retrieveAttestationTrace respond (f + 2 + 1) 0).2 = some (3, m2)
  rw [trace_succ, h0, pollStep_cons, h0s, if_neg (by decide)]
  show (retrieveAttestationTrace respond (f + 1 + 1) 1).2 = some (3, m2)
  rw [trace_succ, h1, pollStep_cons, h1s, if_neg (by decide)]
  show (retrieveAttestationTrace respond (f + 1) 2).2 = some (3, m2)
  rw [trace_succ, h2, pollStep_cons, h2s, if_pos rfl]

/-- Mocked service for the witnesses: pending twice, then complete. -/
def mockIrisThree : Nat → IrisResponse
  | 0 => .ok [{ status := "pending", message := "", attestation := "" }]
  | 1 => .ok [{ status := "pending", message := "", attestation := "" }]
  | _ => .ok [{ status := "complete", message := "msgbytes", attestation := "attbytes" }]

theorem poller_three_requests_witness :
    (retrieveAttestationTrace mockIrisThree 3 0).2 =
      some (3, { status := "complete", message := "msgbytes", attestation := "attbytes" }) :=
  poller_three_requests mockIrisThree _ _ _ _ _ _ 3 rfl rfl rfl rfl rfl rfl
    (by omega)

/-- C6: the poller only ever returns a message of status complete, every delay
it emits is the fixed 5000 ms, a service that never reports a complete first
message keeps it looping for any amount of fuel, and a request error is
swallowed: the loop sleeps 5000 ms and continues with the next request. -/
theorem poller_temporal (respond : Nat → IrisResponse) (fuel k : Nat) :
    (∀ n m, (retrieveAttestationTrace respond fuel k).2 = some (n, m) →
      m.status = "complete") ∧
    (∀ d ∈ (retrieveAttestationTrace respond fuel k).1, d = 5000) ∧
    ((∀ j, isCompleteResponse (respond j) = false) →
      (retrieveAttestationTrace respond fuel k).2 = none) ∧
    (respond k = .fail → retrieveAttestationTrace respond (fuel + 1) k =
      (5000 :: (retrieveAttestationTrace respond fuel (k + 1)).1,
        (retrieveAttestationTrace respond fuel (k + 1)).2)) := by
  induction fuel generalizing k with
  | zero =>
    refine ⟨fun n m h => by simp [trace_zero] at h,
      fun d hd => by simp [trace_zero] at hd,
      fun _ => rfl, fun hf => by rw [trace_succ, hf, pollStep_fail]⟩
  | succ fuel ih =>
    refine ⟨fun n m h => ?_, fun d hd => ?_, fun hnc => ?_,
      fun hf => by rw [trace_succ, hf, pollStep_fail]⟩
    · rw [trace_succ] at h
      cases hr : respond k with
      | fail =>
        rw [hr, pollStep_fail] at h
        exact (ih (k + 1)).1 n m h
      | ok msgs =>
        cases msgs with
        | nil =>
          rw [hr, pollStep_nil] at h
          exact (ih (k + 1)).1 n m h
        | cons m0 rest =>
          rw [hr, pollStep_cons] at h
          by_cases hs : m0.status = "complete"
          · rw [if_pos hs] at h
            obtain ⟨-, rfl⟩ := Prod.mk.injEq .. ▸ (Option.some.inj h)
            exact hs
          · rw [if_neg hs] at h
            exact (ih (k + 1)).1 n m h
    · rw [trace_succ] at hd
      cases hr : respond k with
      | fail =>
        rw [hr, pollStep_fail] at hd
        rcases List.mem_cons.mp hd with h5 | hmem
        · exact h5
        · exact (ih (k + 1)).2.1 d hmem
      | ok msgs =>
        cases msgs with
        | nil =>
          rw [hr, pollStep_nil] at hd
          rcases List.mem_cons.mp hd with h5 | hmem
          · exact h5
          · exact (ih (k + 1)).2.1 d hmem
        | cons m0 rest =>
          rw [hr, pollStep_cons] at hd
          by_cases hs : m0.status = "complete"
          · rw [if_pos hs] at hd
            simp at hd
          · rw [if_neg hs] at hd
            rcases List.mem_cons.mp hd with h5 | hmem
            · exact h5
            · exact (ih (k + 1)).2.1 d hmem
    · rw [trace_succ]
      cases hr : respond k with
      | fail =>
        rw [pollStep_fail]
        exact (ih (k + 1)).2.2.1 hnc
      | ok msgs =>
        cases msgs with
        | nil =>
          rw [pollStep_nil]
          exact (ih (k + 1)).2.2.1 hnc
        | cons m0 rest =>
          have hthis := hnc k
          rw [hr] at hthis
          simp [isCompleteResponse] at hthis
          rw [pollStep_cons, if_neg (by simp [hthis])]
          exact (ih (k + 1)).2.2.1 hnc

/-- Mocked service for the C6 witness: every request throws. -/
def mockIrisFail : Nat → IrisResponse := fun _ => .fail

theorem poller_temporal_witness :
    (retrieveAttestationTrace mockIrisFail 2 0).2 = none ∧
    retrieveAttestationTrace mockIrisFail 3 0 =
      (5000 :: (retrieveAttestationTrace mockIrisFail 2 1).1,
        (retrieveAttestationTrace mockIrisFail 2 1).2) :=
  ⟨(poller_temporal mockIrisFail 2 0).2.2.1 (fun _ => rfl),
    (poller_temporal mockIrisFail 2 0).2.2.2 rfl⟩

/-- C8: the mint stage receives exactly the message and attestation fields of
the object the attestation poll returned, with nothing altered in between. -/
theorem mint_receives_poll_output (burnTx : String)
    (respond : String → Nat → IrisResponse) (fuel n : Nat) (m : IrisMessage)
    (h : (retrieveAttestationTrace (respond (irisUrl 6 burnTx)) fuel 0).2 =
      some (n, m)) :
    pollThenMint burnTx respond fuel =
      some { message := m.message, attestation := m.attestation } := by
  rw [pollThenMint, h]
  rfl

/-- Mocked service for the C8 witness. -/
def mockIrisService : String → Nat → IrisResponse := fun _ => mockIrisThree

theorem mint_receives_poll_output_witness :
    (retrieveAttestationTrace (mockIrisService (irisUrl 6 "0xAA")) 3 0).2 =
      some (3, { status := "complete", message := "msgbytes", attestation := "attbytes" }) ∧
    pollThenMint "0xAA" mockIrisService 3 =
      some { message := "msgbytes", attestation := "attbytes" } := by
  have h : (retrieveAttestationTrace (mockIrisService (irisUrl 6 "0xAA")) 3 0).2 =
      some (3, { status := "complete", message := "msgbytes", attestation := "attbytes" }) := by
    decide
  exact ⟨h, mint_receives_poll_output "0xAA" mockIrisService 3 3 _ h⟩

-- ===== C4: address left-padding =====

theorem hexVal_zero : hexVal '0' = some 0 := rfl

/-- Zero hex-digit pairs in front decode to zero bytes in front. -/
theorem bufferHexDecode_replicate_zero (k : Nat) (t : List Char) :
    bufferHexDecode (List.replicate (2 * k) '0' ++ t) =
      List.replicate k 0 ++ bufferHexDecode t := by
  induction k with
  | zero => simp
  | succ k ih =>
    have hrep : List.replicate (2 * (k + 1)) '0' =
        '0' :: '0' :: List.replicate (2 * k) '0' := by
      have : 2 * (k + 1) = 2 * k + 1 + 1 := by ring
      rw [this, List.replicate_succ, List.replicate_succ]
    rw [hrep]
    show bufferHexDecode ('0' :: '0' :: (List.replicate (2 * k) '0' ++ t)) = _
    simp only [bufferHexDecode, hexVal_zero]
    rw [ih]
    simp [List.replicate_succ]

theorem hexDecode_length : ∀ t : List Char, t.all isHexChar = true →
    t.length % 2 = 0 → (bufferHexDecode t).length = t.length / 2
  | [], _, _ => by simp [bufferHexDecode]
  | [c], _, hm => by simp at hm
  | c1 :: c2 :: rest, h, hm => by
    simp only [List.all_cons, Bool.and_eq_true] at h
    obtain ⟨h1, h2, hrest⟩ := h
    obtain ⟨v1, hv1⟩ := Option.isSome_iff_exists.mp h1
    obtain ⟨v2, hv2⟩ := Option.isSome_iff_exists.mp h2
    have hr := hexDecode_length rest (by simpa [List.all_eq_true] using hrest)
      (by simp at hm; omega)
    simp only [bufferHexDecode, hv1, hv2]
    simp [hr]
    omega

/-- Decoding the hex digits of a byte list recovers the bytes. -/
theorem bufferHexDecode_flatMap (p : List Nat) (hb : ∀ b ∈ p, b < 256) :
    bufferHexDecode (p.flatMap byteToHex2) = p := by
  induction p with
  | nil => rfl
  | cons b rest ih =>
    have hblt : b < 256 := hb b (by simp)
    have hv1 : hexVal (hexDigitChar (b % 256 / 16)) = some (b % 256 / 16) :=
      hexVal_hexDigitChar _ (by omega)
    have hv2 : hexVal (hexDigitChar (b % 16)) = some (b % 16) :=
      hexVal_hexDigitChar _ (by omega)
    show bufferHexDecode (hexDigitChar (b % 256 / 16) :: hexDigitChar (b % 16) ::
      rest.flatMap byteToHex2) = b :: rest
    simp only [bufferHexDecode, hv1, hv2]
    rw [ih (fun x hx => hb x (by simp [hx]))]
    have : b % 256 = b := Nat.mod_eq_of_lt hblt
    rw [this]
    congr 1
    omega

/-- C4: on a 0x-prefixed 40-hex-digit EVM address both padding helpers return
the 0x-prefixed 64-digit string whose first 24 digits are 0 and whose last 40
digits are the original address digits; as bytes, 12 zero bytes followed by
the 20 original address bytes, 32 bytes in all. -/
theorem toBytes32_padding (t : List Char) (hlen : t.length = 40)
    (hhex : t.all isHexChar = true) :
    toBytes32Address ('0' :: 'x' :: t) = '0' :: 'x' :: (List.replicate 24 '0' ++ t) ∧
    (toBytes32Address ('0' :: 'x' :: t)).length = 66 ∧
    ((toBytes32Address ('0' :: 'x' :: t)).drop 2).drop 24 = t ∧
    bufferHexDecode ((toBytes32Address ('0' :: 'x' :: t)).drop 2) =
      List.replicate 12 0 ++ bufferHexDecode t ∧
    (bufferHexDecode ((toBytes32Address ('0' :: 'x' :: t)).drop 2)).length = 32 ∧
    toBytes32 ('0' :: 'x' :: t) = toBytes32Address ('0' :: 'x' :: t) := by
  have hform : toBytes32Address ('0' :: 'x' :: t) =
      '0' :: 'x' :: (List.replicate 24 '0' ++ t) := rfl
  have hdrop : (toBytes32Address ('0' :: 'x' :: t)).drop 2 =
      List.replicate 24 '0' ++ t := rfl
  have hdec : bufferHexDecode ((toBytes32Address ('0' :: 'x' :: t)).drop 2) =
      List.replicate 12 0 ++ bufferHexDecode t := by
    rw [hdrop]
    have h24 : (24 : Nat) = 2 * 12 := by norm_num
    rw [h24, bufferHexDecode_replicate_zero]
  refine ⟨hform, by simp [hform, hlen], by simp [hdrop], hdec, ?_, ?_⟩
  · rw [hdec]
    have ht : (bufferHexDecode t).length = 20 := by
      rw [hexDecode_length t hhex (by omega), hlen]
    simp [ht]
  · show toBytes32 ('0' :: 'x' :: t) = '0' :: 'x' :: (List.replicate 24 '0' ++ t)
    unfold toBytes32
    show '0' :: 'x' :: (List.replicate (64 - t.length) '0' ++ t) = _
    rw [hlen]

/-- The USDC contract address from the scripts, as the witness input. -/
def sampleAddrTail : List Char :=
  "036CbD53842c5426634e7929541eC2318f3dCF7e".data

theorem toBytes32_padding_witness :
    (sampleAddrTail.length = 40 ∧ sampleAddrTail.all isHexChar = true) ∧
    (toBytes32Address ('0' :: 'x' :: sampleAddrTail) =
        '0' :: 'x' :: (List.replicate 24 '0' ++ sampleAddrTail) ∧
      (toBytes32Address ('0' :: 'x' :: sampleAddrTail)).length = 66 ∧
      ((toBytes32Address ('0' :: 'x' :: sampleAddrTail)).drop 2).drop 24 = sampleAddrTail ∧
      bufferHexDecode ((toBytes32Address ('0' :: 'x' :: sampleAddrTail)).drop 2) =
        List.replicate 12 0 ++ bufferHexDecode sampleAddrTail ∧
      (bufferHexDecode ((toBytes32Address ('0' :: 'x' :: sampleAddrTail)).drop 2)).length = 32 ∧
      toBytes32 ('0' :: 'x' :: sampleAddrTail) =
        toBytes32Address ('0' :: 'x' :: sampleAddrTail)) :=
  ⟨⟨by decide, by decide⟩, toBytes32_padding sampleAddrTail (by decide) (by decide)⟩

-- ===== base64 and strict hex lemmas (C2, C10) =====

theorem charToSextet_sextetToChar (v : Nat) (hv : v < 64) :
    charToSextet (sextetToChar v) = some v := by
  interval_cases v <;> decide

theorem sextet_valid (v : Nat) (hv : v < 64) :
    (charToSextet (sextetToChar v)).isSome = true := by
  rw [charToSextet_sextetToChar v hv]
  rfl

theorem charToSextet_pad : charToSextet '=' = none := rfl

/-- The sextet values of the base64 encoding of a payload, grouped as the
encoder emits them (padding omitted). -/
def b64Sextets : List Nat → List Nat
  | [] => []
  | [b1] => [b1 / 4, b1 % 4 * 16]
  | [b1, b2] => [b1 / 4, b1 % 4 * 16 + b2 / 16, b2 % 16 * 4]
  | b1 :: b2 :: b3 :: rest =>
    b1 / 4 :: (b1 % 4 * 16 + b2 / 16) :: (b2 % 16 * 4 + b3 / 64) :: b3 % 64 ::
      b64Sextets rest

theorem b64Sextets_of_encode : ∀ p : List Nat, (∀ b ∈ p, b < 256) →
    ((base64Encode p).takeWhile (fun ch => (charToSextet ch).isSome)).filterMap
      charToSextet = b64Sextets p
  | [], _ => rfl
  | [b1], h => by
    have hb1 : b1 < 256 := h b1 (by simp)
    have hv1 : charToSextet (sextetToChar (b1 / 4)) = some (b1 / 4) :=
      charToSextet_sextetToChar _ (by omega)
    have hv2 : charToSextet (sextetToChar (b1 % 4 * 16)) = some (b1 % 4 * 16) :=
      charToSextet_sextetToChar _ (by omega)
    show ((sextetToChar (b1 / 4) :: sextetToChar (b1 % 4 * 16) :: '=' :: '=' ::
      []).takeWhile (fun ch => (charToSextet ch).isSome)).filterMap charToSextet =
      [b1 / 4, b1 % 4 * 16]
    rw [List.takeWhile_cons_of_pos (by rw [hv1]; rfl),
      List.takeWhile_cons_of_pos (by rw [hv2]; rfl),
      List.takeWhile_cons_of_neg (by rw [charToSextet_pad]; decide)]
    simp [List.filterMap_cons, hv1, hv2]
  | [b1, b2], h => by
    have hb1 : b1 < 256 := h b1 (by simp)
    have hb2 : b2 < 256 := h b2 (by simp)
    have hv1 : charToSextet (sextetToChar (b1 / 4)) = some (b1 / 4) :=
      charToSextet_sextetToChar _ (by omega)
    have hv2 : charToSextet (sextetToChar (b1 % 4 * 16 + b2 / 16)) =
        some (b1 % 4 * 16 + b2 / 16) := charToSextet_sextetToChar _ (by omega)
    have hv3 : charToSextet (sextetToChar (b2 % 16 * 4)) = some (b2 % 16 * 4) :=
      charToSextet_sextetToChar _ (by omega)
    show ((sextetToChar (b1 / 4) :: sextetToChar (b1 % 4 * 16 + b2 / 16) ::
      sextetToChar (b2 % 16 * 4) :: '=' :: []).takeWhile
        (fun ch => (charToSextet ch).isSome)).filterMap charToSextet =
      [b1 / 4, b1 % 4 * 16 + b2 / 16, b2 % 16 * 4]
    rw [List.takeWhile_cons_of_pos (by rw [hv1]; rfl),
      List.takeWhile_cons_of_pos (by rw [hv2]; rfl),
      List.takeWhile_cons_of_pos (by rw [hv3]; rfl),
      List.takeWhile_cons_of_neg (by rw [charToSextet_pad]; decide)]
    simp [List.filterMap_cons, hv1, hv2, hv3]
  | b1 :: b2 :: b3 :: rest, h => by
    have hb1 : b1 < 256 := h b1 (by simp)
    have hb2 : b2 < 256 := h b2 (by simp)
    have hb3 : b3 < 256 := h b3 (by simp)
    have hrest : ∀ b ∈ rest, b < 256 := fun b hb => h b (by simp [hb])
    have hv1 : charToSextet (sextetToChar (b1 / 4)) = some (b1 / 4) :=
      charToSextet_sextetToChar _ (by omega)
    have hv2 : charToSextet (sextetToChar (b1 % 4 * 16 + b2 / 16)) =
        some (b1 % 4 * 16 + b2 / 16) := charToSextet_sextetToChar _ (by omega)
    have hv3 : charToSextet (sextetToChar (b2 % 16 * 4 + b3 / 64)) =
        some (b2 % 16 * 4 + b3 / 64) := charToSextet_sextetToChar _ (by omega)
    have hv4 : charToSextet (sextetToChar (b3 % 64)) = some (b3 % 64) :=
      charToSextet_sextetToChar _ (by omega)
    have hrec := b64Sextets_of_encode rest hrest
    show ((sextetToChar (b1 / 4) :: sextetToChar (b1 % 4 * 16 + b2 / 16) ::
      sextetToChar (b2 % 16 * 4 + b3 / 64) :: sextetToChar (b3 % 64) ::
      base64Encode rest).takeWhile
        (fun ch => (charToSextet ch).isSome)).filterMap charToSextet =
      b1 / 4 :: (b1 % 4 * 16 + b2 / 16) :: (b2 % 16 * 4 + b3 / 64) :: b3 % 64 ::
        b64Sextets rest
    rw [List.takeWhile_cons_of_pos (by rw [hv1]; rfl),
      List.takeWhile_cons_of_pos (by rw [hv2]; rfl),
      List.takeWhile_cons_of_pos (by rw [hv3]; rfl),
      List.takeWhile_cons_of_pos (by rw [hv4]; rfl)]
    simp only [List.filterMap_cons, hv1, hv2, hv3, hv4]
    rw [hrec]

theorem sextetsToBytes_b64Sextets : ∀ p : List Nat, (∀ b ∈ p, b < 256) →
    sextetsToBytes (b64Sextets p) = p
  | [], _ => rfl
  | [b1], h => by
    have hb1 : b1 < 256 := h b1 (by simp)
    show [b1 / 4 * 4 + b1 % 4 * 16 / 16] = [b1]
    congr 1
    omega
  | [b1, b2], h => by
    have hb1 : b1 < 256 := h b1 (by simp)
    have hb2 : b2 < 256 := h b2 (by simp)
    show [b1 / 4 * 4 + (b1 % 4 * 16 + b2 / 16) / 16,
      (b1 % 4 * 16 + b2 / 16) % 16 * 16 + b2 % 16 * 4 / 4] = [b1, b2]
    congr 1
    · omega
    · congr 1
      omega
  | b1 :: b2 :: b3 :: rest, h => by
    have hb1 : b1 < 256 := h b1 (by simp)
    have hb2 : b2 < 256 := h b2 (by simp)
    have hb3 : b3 < 256 := h b3 (by simp)
    have hrest : ∀ b ∈ rest, b < 256 := fun b hb => h b (by simp [hb])
    have hrec := sextetsToBytes_b64Sextets rest hrest
    cases rest with
    | nil =>
      show [b1 / 4 * 4 + (b1 % 4 * 16 + b2 / 16) / 16,
        (b1 % 4 * 16 + b2 / 16) % 16 * 16 + (b2 % 16 * 4 + b3 / 64) / 4,
        (b2 % 16 * 4 + b3 / 64) % 4 * 64 + b3 % 64] = [b1, b2, b3]
      congr 1
      · omega
      · congr 1
        · omega
        · congr 1
          omega
    | cons b4 rest' =>
      show (b1 / 4 * 4 + (b1 % 4 * 16 + b2 / 16) / 16) ::
        ((b1 % 4 * 16 + b2 / 16) % 16 * 16 + (b2 % 16 * 4 + b3 / 64) / 4) ::
        ((b2 % 16 * 4 + b3 / 64) % 4 * 64 + b3 % 64) ::
        sextetsToBytes (b64Sextets (b4 :: rest')) = b1 :: b2 :: b3 :: b4 :: rest'
      rw [hrec]
      congr 1
      · omega
      · congr 1
        · omega
        · congr 1
          omega

/-- Base64 round trip: Buffer base64 decoding of the RFC 4648 encoding of a
payload recovers the payload. -/
theorem bufferBase64Decode_encode (p : List Nat) (hb : ∀ b ∈ p, b < 256) :
    bufferBase64Decode (base64Encode p) = p := by
  unfold bufferBase64Decode
  rw [b64Sextets_of_encode p hb, sextetsToBytes_b64Sextets p hb]

theorem flatMap_byteToHex2_length (p : List Nat) :
    (p.flatMap byteToHex2).length = 2 * p.length := by
  induction p with
  | nil => rfl
  | cons b rest ih =>
    show (byteToHex2 b ++ rest.flatMap byteToHex2).length = 2 * (rest.length + 1)
    simp [byteToHex2] at ih ⊢
    omega

/-- Strict hex decoding of the hex digits of a byte list recovers the bytes. -/
theorem hexPairsStrict_flatMap (p : List Nat) (hb : ∀ b ∈ p, b < 256) :
    hexPairsStrict (p.flatMap byteToHex2) = some p := by
  induction p with
  | nil => rfl
  | cons b rest ih =>
    have hblt : b < 256 := hb b (by simp)
    have hv1 : hexVal (hexDigitChar (b % 256 / 16)) = some (b % 256 / 16) :=
      hexVal_hexDigitChar _ (by omega)
    have hv2 : hexVal (hexDigitChar (b % 16)) = some (b % 16) :=
      hexVal_hexDigitChar _ (by omega)
    show hexPairStep (hexVal (hexDigitChar (b % 256 / 16)))
      (hexVal (hexDigitChar (b % 16)))
      (hexPairsStrict (rest.flatMap byteToHex2)) = some (b :: rest)
    rw [hv1, hv2, ih (fun x hx => hb x (by simp [hx]))]
    show some ((b % 256 / 16 * 16 + b % 16) :: rest) = some (b :: rest)
    have hB : b % 256 / 16 * 16 + b % 16 = b := by omega
    rw [hB]

theorem hexPairStep_none_left (o2 : Option Nat) (orest : Option (List Nat)) :
    hexPairStep none o2 orest = none := rfl

theorem hexPairStep_none_mid (hi : Nat) (orest : Option (List Nat)) :
    hexPairStep (some hi) none orest = none := rfl

theorem hexPairStep_none_rest (hi lo : Nat) :
    hexPairStep (some hi) (some lo) none = none := rfl

/-- Whenever strict decoding succeeds, the lenient Buffer decoder agrees. -/
theorem bufferHexDecode_of_strict : ∀ (t : List Char) (bs : List Nat),
    hexPairsStrict t = some bs → bufferHexDecode t = bs
  | [], bs, h => by
    have : ([] : List Nat) = bs := Option.some.inj h
    simp [bufferHexDecode, ← this]
  | [c], bs, h => by
    exact Option.noConfusion h
  | c1 :: c2 :: rest, bs, h => by
    have hstep : hexPairStep (hexVal c1) (hexVal c2) (hexPairsStrict rest) =
      some bs := h
    cases hv1 : hexVal c1 with
    | none => rw [hv1, hexPairStep_none_left] at hstep; exact Option.noConfusion hstep
    | some hi =>
      cases hv2 : hexVal c2 with
      | none => rw [hv1, hv2, hexPairStep_none_mid] at hstep; exact Option.noConfusion hstep
      | some lo =>
        cases hrest : hexPairsStrict rest with
        | none =>
          rw [hv1, hv2, hrest, hexPairStep_none_rest] at hstep
          exact Option.noConfusion hstep
        | some bs' =>
          rw [hv1, hv2, hrest] at hstep
          have hbs : (hi * 16 + lo) :: bs' = bs := Option.some.inj hstep
          have hr := bufferHexDecode_of_strict rest bs' hrest
          show (match hexVal c1, hexVal c2 with
            | some hi, some lo => (hi * 16 + lo) :: bufferHexDecode rest
            | _, _ => []) = bs
          rw [hv1, hv2]
          show (hi * 16 + lo) :: bufferHexDecode rest = bs
          rw [hr, hbs]

-- ===== C2 and C10: envelope decoding =====

/-- C2 counterexample: the 3-byte payload 0x69 0xb7 0x1d has base64 encoding
abcd, which the auto-detection classifies as hex, so the hex form and the
base64 form of the same payload decode to different byte sequences (in both
copies of decodeEnvelope). -/
theorem envelope_invariance_cex :
    base64Encode [105, 183, 29] = ['a', 'b', 'c', 'd'] ∧
    decodeEnvelopeSolana (hexEncode0x [105, 183, 29]) = [105, 183, 29] ∧
    decodeEnvelopeSolana (base64Encode [105, 183, 29]) = [171, 205] ∧
    decodeEnvelope (base64Encode [105, 183, 29]) = some [205] ∧
    decodeEnvelopeSolana (base64Encode [105, 183, 29]) ≠
      decodeEnvelopeSolana (hexEncode0x [105, 183, 29]) := by
  decide

/-- C2 (amended): for every payload whose base64 encoding the hex
auto-detection does not classify as hex, both copies of decodeEnvelope return
the payload on the 0x-prefixed hex form and on the base64 form alike. -/
theorem envelope_invariance_amended (p : List Nat) (hb : ∀ b ∈ p, b < 256)
    (hnd : hexDetect (base64Encode p) = false) :
    decodeEnvelope (hexEncode0x p) = some p ∧
    decodeEnvelopeSolana (hexEncode0x p) = p ∧
    decodeEnvelope (base64Encode p) = some p ∧
    decodeEnvelopeSolana (base64Encode p) = p := by
  have hdet : hexDetect (hexEncode0x p) = true := rfl
  have hdrop : (hexEncode0x p).drop 2 = p.flatMap byteToHex2 := rfl
  refine ⟨?_, ?_, ?_, ?_⟩
  · rw [decodeEnvelope, hdet, if_pos rfl]
    show hexPairsStrict (if ((hexEncode0x p).drop 2).length % 2 = 1
      then '0' :: (hexEncode0x p).drop 2 else (hexEncode0x p).drop 2) = some p
    rw [hdrop, if_neg (by rw [flatMap_byteToHex2_length]; omega)]
    exact hexPairsStrict_flatMap p hb
  · rw [decodeEnvelopeSolana, hdet, if_pos rfl]
    show bufferHexDecode (p.flatMap byteToHex2) = p
    exact bufferHexDecode_flatMap p hb
  · rw [decodeEnvelope, hnd, if_neg (by simp)]
    rw [bufferBase64Decode_encode p hb]
  · rw [decodeEnvelopeSolana, hnd, if_neg (by simp)]
    exact bufferBase64Decode_encode p hb

theorem envelope_invariance_amended_witness :
    ((∀ b ∈ ([255] : List Nat), b < 256) ∧
      hexDetect (base64Encode [255]) = false) ∧
    (decodeEnvelope (hexEncode0x [255]) = some [255] ∧
      decodeEnvelopeSolana (hexEncode0x [255]) = [255] ∧
      decodeEnvelope (base64Encode [255]) = some [255] ∧
      decodeEnvelopeSolana (base64Encode [255]) = [255]) :=
  ⟨⟨by decide, by decide⟩,
    envelope_invariance_amended [255] (by decide) (by decide)⟩

/-- C10 counterexample: on the plain hex string abcd (no 0x prefix) the viem
copy drops the first two characters and returns one byte while the Buffer
copy decodes all four characters into two bytes; neither fails, and the
results differ. -/
theorem decodeEnvelope_copies_cex :
    decodeEnvelope ['a', 'b', 'c', 'd'] = some [205] ∧
    decodeEnvelopeSolana ['a', 'b', 'c', 'd'] = [171, 205] ∧
    decodeEnvelope ['a', 'b', 'c', 'd'] ≠
      some (decodeEnvelopeSolana ['a', 'b', 'c', 'd']) := by
  decide

/-- C10 (amended): the two copies of decodeEnvelope agree on every input the
detector routes to the base64 branch and on every 0x-prefixed input whose
remainder is even-length valid hex; on a plain hex string without the 0x
prefix they differ (the viem copy drops the first two characters). -/
theorem decodeEnvelope_copies_agree (s : List Char) :
    (hexDetect s = false → decodeEnvelope s = some (decodeEnvelopeSolana s)) ∧
    (∀ t bs, s = '0' :: 'x' :: t → t.length % 2 = 0 →
      hexPairsStrict t = some bs →
      decodeEnvelope s = some bs ∧ decodeEnvelopeSolana s = bs) := by
  constructor
  · intro hnd
    rw [decodeEnvelope, decodeEnvelopeSolana, hnd, if_neg (by simp),
      if_neg (by simp)]
  · rintro t bs rfl hlen hstrict
    have hdet : hexDetect ('0' :: 'x' :: t) = true := rfl
    constructor
    · rw [decodeEnvelope, hdet, if_pos rfl]
      show hexPairsStrict (if (('0' :: 'x' :: t).drop 2).length % 2 = 1
        then '0' :: ('0' :: 'x' :: t).drop 2 else ('0' :: 'x' :: t).drop 2) =
        some bs
      have hd2 : ('0' :: 'x' :: t).drop 2 = t := rfl
      rw [hd2, if_neg (by omega)]
      exact hstrict
    · rw [decodeEnvelopeSolana, hdet, if_pos rfl]
      show bufferHexDecode t = bs
      exact bufferHexDecode_of_strict t bs hstrict

theorem decodeEnvelope_copies_agree_witness :
    (hexDetect ['/', 'w', '=', '='] = false ∧
      decodeEnvelope ['/', 'w', '=', '='] =
        some (decodeEnvelopeSolana ['/', 'w', '=', '='])) ∧
    (hexPairsStrict ['a', 'b'] = some [171] ∧
      decodeEnvelope ['0', 'x', 'a', 'b'] = some [171] ∧
      decodeEnvelopeSolana ['0', 'x', 'a', 'b'] = [171]) :=
  ⟨⟨by decide, (decodeEnvelope_copies_agree ['/', 'w', '=', '=']).1 (by decide)⟩,
    ⟨by decide,
      ((decodeEnvelope_copies_agree ['0', 'x', 'a', 'b']).2 ['a', 'b'] [171]
        rfl (by decide) (by decide)).1,
      ((decodeEnvelope_copies_agree ['0', 'x', 'a', 'b']).2 ['a', 'b'] [171]
        rfl (by decide) (by decide)).2⟩⟩
